import Mathlib

/-!
Verification of the ops-app-repo Slack/Dify glue scripts.

This file gives a shallow embedding of the small algorithmic kernels of the
repository (message splitting, CSV chunking, category-history tracking,
duplicate-event guarding, rate-limit retry, conversation-id stores, and the
recursive Notion content walk) and proves the testable properties stated for
them.  JavaScript strings are modelled as Lean strings (sequences of Unicode
scalar values), `Buffer.byteLength(s, 'utf8')` as the sum of the UTF-8 sizes
of the characters, maps/sets as association lists / lists, and the async
handlers as explicit state-passing functions.
-/

namespace OpsApp

/-- UTF-8 byte length of a character list, the model of
`Buffer.byteLength(str, 'utf8')`. -/
def utf8Len (cs : List Char) : Nat :=
  (cs.map Char.utf8Size).sum

theorem utf8Len_nil : utf8Len [] = 0 := rfl

theorem utf8Len_append (a b : List Char) :
    utf8Len (a ++ b) = utf8Len a + utf8Len b := by
  simp [utf8Len]

theorem utf8Len_cons (c : Char) (cs : List Char) :
    utf8Len (c :: cs) = c.utf8Size + utf8Len cs := by
  simp [utf8Len]

/-- Every Unicode scalar value occupies at most 4 bytes in UTF-8. -/
theorem utf8Size_le_four (c : Char) : c.utf8Size ≤ 4 := by
  simp only [Char.utf8Size]
  repeat' split
  all_goals omega

/-- `String.utf8ByteSize` agrees with `utf8Len` on the underlying data. -/
theorem utf8ByteSize_eq_utf8Len (s : String) : s.utf8ByteSize = utf8Len s.data := by
  cases s with
  | mk cs =>
    simp only [String.utf8ByteSize]
    induction cs with
    | nil => rfl
    | cons c cs ih =>
      simp only [String.utf8ByteSize.go, utf8Len_cons] at *
      omega

/-! ## splitMessage (src/slack-dify-ops-bot/index.js lines 266–284 and
src/unnamed/part_003 lines 178–197)

```js
function splitMessage(text, maxBytes = 2900) {
    const result = [];
    let buffer = '';
    let bufferBytes = 0;
    for (const char of text) {
        const charBytes = Buffer.byteLength(char, 'utf8');
        if (bufferBytes + charBytes > maxBytes) {
            result.push(buffer);
            buffer = '';
            bufferBytes = 0;
        }
        buffer += char;
        bufferBytes += charBytes;
    }
    if (buffer) {
        result.push(buffer);
    }
    return result;
}
```

The `for (const char of text)` loop walks the Unicode code points of the
string; the loop body is embedded as `splitMessageGo`, with the remaining
code points, the current buffer and its byte count as explicit state. -/

def splitMessageGo (maxBytes : Nat) :
    List Char → List Char → Nat → List (List Char)
  | [], buffer, _ =>
      if buffer.isEmpty then [] else [buffer]
  | c :: cs, buffer, bufferBytes =>
      let charBytes := c.utf8Size
      if bufferBytes + charBytes > maxBytes then
        buffer :: splitMessageGo maxBytes cs [c] charBytes
      else
        splitMessageGo maxBytes cs (buffer ++ [c]) (bufferBytes + charBytes)

/-- `splitMessage` on the underlying code-point list. -/
def splitMessage (text : List Char) (maxBytes : Nat) : List (List Char) :=
  splitMessageGo maxBytes text [] 0

/-- `splitMessage` at the string level; the configured maxima in the two
variants are 2900 and 3900. -/
def splitMessageStr (text : String) (maxBytes : Nat) : List String :=
  (splitMessage text.data maxBytes).map String.mk

example : splitMessageStr "abcdef" 2 = ["ab", "cd", "ef"] := by decide

example : splitMessageStr "abcde" 2 = ["ab", "cd", "e"] := by decide

example : splitMessageStr "" 2900 = [] := by decide

/-- The chunks produced by the splitter loop concatenate back to the buffer
followed by the remaining input, with no hypotheses at all. -/
theorem splitMessageGo_flatten (maxBytes : Nat) (cs : List Char) :
    ∀ (buffer : List Char) (bufferBytes : Nat),
      (splitMessageGo maxBytes cs buffer bufferBytes).flatten = buffer ++ cs := by
  induction cs with
  | nil =>
      intro buffer bufferBytes
      by_cases h : buffer.isEmpty
      · simp_all [splitMessageGo, List.isEmpty_iff]
      · simp_all [splitMessageGo]
  | cons c cs ih =>
      intro buffer bufferBytes
      by_cases h : bufferBytes + c.utf8Size > maxBytes
      · simp [splitMessageGo, h, ih]
      · simp [splitMessageGo, h, ih]

/-- Every chunk respects the byte budget, provided the running byte counter is
accurate, the current buffer is within budget, and no single remaining code
point exceeds the budget. -/
theorem splitMessageGo_chunk_le (maxBytes : Nat) (cs : List Char) :
    ∀ (buffer : List Char) (bufferBytes : Nat),
      bufferBytes = utf8Len buffer →
      utf8Len buffer ≤ maxBytes →
      (∀ c ∈ cs, c.utf8Size ≤ maxBytes) →
      ∀ chunk ∈ splitMessageGo maxBytes cs buffer bufferBytes,
        utf8Len chunk ≤ maxBytes := by
  induction cs with
  | nil =>
      intro buffer bufferBytes hacc hle _ chunk hchunk
      by_cases h : buffer.isEmpty
      · simp_all [splitMessageGo]
      · simp only [splitMessageGo, h, if_neg, Bool.false_eq_true, if_false,
          List.mem_singleton] at hchunk
        subst hchunk; exact hle
  | cons c cs ih =>
      intro buffer bufferBytes hacc hle hcs chunk hchunk
      have hc : c.utf8Size ≤ maxBytes := hcs c (List.mem_cons_self c cs)
      have hcs' : ∀ x ∈ cs, x.utf8Size ≤ maxBytes :=
        fun x hx => hcs x (List.mem_cons_of_mem c hx)
      by_cases h : bufferBytes + c.utf8Size > maxBytes
      · simp only [splitMessageGo, h, if_pos, List.mem_cons] at hchunk
        rcases hchunk with rfl | hchunk
        · exact hle
        · exact ih [c] c.utf8Size (by simp [utf8Len]) (by simpa [utf8Len] using hc)
            hcs' chunk hchunk
      · simp only [splitMessageGo, h, if_neg] at hchunk
        refine ih (buffer ++ [c]) (bufferBytes + c.utf8Size) ?_ ?_ hcs' chunk hchunk
        · simp [utf8Len_append, utf8Len, hacc]
        · have : bufferBytes + c.utf8Size ≤ maxBytes := by omega
          simpa [utf8Len_append, utf8Len, hacc] using this

/-- When no remaining code point exceeds the budget, every chunk the loop
emits is non-empty (the flush branch can only fire on a non-empty buffer). -/
theorem splitMessageGo_chunks_ne_nil (maxBytes : Nat) (cs : List Char) :
    ∀ (buffer : List Char) (bufferBytes : Nat),
      bufferBytes = utf8Len buffer →
      (∀ c ∈ cs, c.utf8Size ≤ maxBytes) →
      ∀ chunk ∈ splitMessageGo maxBytes cs buffer bufferBytes, chunk ≠ [] := by
  induction cs with
  | nil =>
      intro buffer bufferBytes _ _ chunk hchunk
      by_cases h : buffer.isEmpty
      · simp_all [splitMessageGo]
      · simp only [splitMessageGo, h, Bool.false_eq_true, if_false,
          List.mem_singleton] at hchunk
        subst hchunk
        simpa [List.isEmpty_iff] using h
  | cons c cs ih =>
      intro buffer bufferBytes hacc hcs chunk hchunk
      have hc : c.utf8Size ≤ maxBytes := hcs c (List.mem_cons_self c cs)
      have hcs' : ∀ x ∈ cs, x.utf8Size ≤ maxBytes :=
        fun x hx => hcs x (List.mem_cons_of_mem c hx)
      by_cases h : bufferBytes + c.utf8Size > maxBytes
      · have hbuf : buffer ≠ [] := by
          intro hnil
          subst hnil
          simp [utf8Len] at hacc
          omega
        simp only [splitMessageGo, h, if_pos, List.mem_cons] at hchunk
        rcases hchunk with rfl | hchunk
        · exact hbuf
        · exact ih [c] c.utf8Size (by simp [utf8Len]) hcs' chunk hchunk
      · simp only [splitMessageGo, h, if_neg] at hchunk
        exact ih (buffer ++ [c]) (bufferBytes + c.utf8Size)
          (by simp [utf8Len_append, utf8Len, hacc]) hcs' chunk hchunk

/-- The loop returns an empty chunk list exactly when both the remaining
input and the buffer are empty. -/
theorem splitMessageGo_eq_nil_iff (maxBytes : Nat) (cs : List Char) :
    ∀ (buffer : List Char) (bufferBytes : Nat),
      splitMessageGo maxBytes cs buffer bufferBytes = [] ↔
        (cs = [] ∧ buffer = []) := by
  induction cs with
  | nil =>
      intro buffer bufferBytes
      by_cases h : buffer.isEmpty
      · simp_all [splitMessageGo, List.isEmpty_iff]
      · simp_all [splitMessageGo, List.isEmpty_iff]
  | cons c cs ih =>
      intro buffer bufferBytes
      by_cases h : bufferBytes + c.utf8Size > maxBytes
      · simp [splitMessageGo, h]
      · simp [splitMessageGo, h, ih]

/-- Closed form for the number of chunks the loop produces on a run of `n`
copies of a 1-byte character: the remaining characters are packed greedily
into chunks of `m` bytes. -/
theorem splitMessageGo_replicate_length (c : Char) (h1 : c.utf8Size = 1)
    (m : Nat) (hm : 1 ≤ m) :
    ∀ (n : Nat) (buffer : List Char) (b : Nat),
      b = buffer.length → b ≤ m →
      (splitMessageGo m (List.replicate n c) buffer b).length =
        if b + n = 0 then 0 else (b + n + m - 1) / m := by
  intro n
  induction n with
  | zero =>
      intro buffer b hb hbm
      cases buffer with
      | nil =>
          subst hb
          simp [splitMessageGo]
      | cons x xs =>
          subst hb
          rw [List.replicate_zero]
          simp only [splitMessageGo, List.isEmpty_cons, Bool.false_eq_true,
            if_false, List.length_singleton]
          rw [if_neg (by simp)]
          symm
          apply Nat.div_eq_of_lt_le
          · simp only [List.length_cons, one_mul]
            omega
          · simp only [List.length_cons] at hbm ⊢
            omega
  | succ n ih =>
      intro buffer b hb hbm
      rw [List.replicate_succ]
      simp only [splitMessageGo, h1]
      by_cases h : b + 1 > m
      · have hbm' : b = m := by omega
        rw [if_pos h]
        simp only [List.length_cons]
        rw [ih [c] 1 (by simp) hm]
        rw [if_neg (by omega), if_neg (by omega)]
        have h2 : 1 + n + m - 1 = n + m := by omega
        have h3 : b + (n + 1) + m - 1 = (n + m) + m := by omega
        rw [h2, h3, Nat.add_div_right _ (by omega), Nat.add_div_right _ (by omega),
          Nat.add_div_right _ (by omega)]
      · rw [if_neg h]
        rw [ih (buffer ++ [c]) (b + 1) (by simp [hb]) (by omega)]
        rw [if_neg (by omega), if_neg (by omega)]
        congr 1
        omega

/-- `String.join` over wrapped character lists is concatenation of the lists. -/
theorem join_map_mk (l : List (List Char)) :
    String.join (l.map String.mk) = String.mk l.flatten := by
  induction l with
  | nil => rfl
  | cons a l ih =>
      apply String.ext
      have hdata : ∀ (s : List (List Char)) (acc : String),
          (List.foldl (· ++ ·) acc (s.map String.mk)).data =
            acc.data ++ s.flatten := by
        intro s
        induction s with
        | nil => intro acc; simp
        | cons b s ihs =>
            intro acc
            simp [ihs, List.flatten]
      simpa [String.join] using hdata (a :: l) ""

/-- The 10,000-byte test string of the specification: 10,000 ASCII bytes. -/
def tenKString : String := String.mk (List.replicate 10000 'a')

/-- **C1.** For every input string and any byte budget of at least 4 (every
UTF-8 code point fits in 4 bytes; the configured maxima are 2900 and 3900),
the chunks returned by `splitMessage` concatenate back to the input and each
chunk is within the budget; in particular splitting the 10,000-byte string
with a 3,900-byte budget yields 3 chunks whose concatenation reproduces the
original. -/
theorem splitMessage_concat_and_bound :
    (∀ (text : String) (maxBytes : Nat), 4 ≤ maxBytes →
        String.join (splitMessageStr text maxBytes) = text ∧
        ∀ chunk ∈ splitMessageStr text maxBytes, chunk.utf8ByteSize ≤ maxBytes) ∧
    (tenKString.utf8ByteSize = 10000 ∧
      (splitMessageStr tenKString 3900).length = 3 ∧
      String.join (splitMessageStr tenKString 3900) = tenKString) := by
  have hmain : ∀ (text : String) (maxBytes : Nat), 4 ≤ maxBytes →
      String.join (splitMessageStr text maxBytes) = text ∧
      ∀ chunk ∈ splitMessageStr text maxBytes, chunk.utf8ByteSize ≤ maxBytes := by
    intro text maxBytes hmax
    constructor
    · rw [splitMessageStr, join_map_mk, splitMessage,
        splitMessageGo_flatten maxBytes text.data [] 0]
      cases text; rfl
    · intro chunk hchunk
      rcases List.mem_map.mp hchunk with ⟨cl, hcl, rfl⟩
      rw [utf8ByteSize_eq_utf8Len]
      exact splitMessageGo_chunk_le maxBytes text.data [] 0 rfl
        (by simp [utf8Len])
        (fun c _ => le_trans (utf8Size_le_four c) hmax) cl hcl
  refine ⟨hmain, ?_, ?_, (hmain tenKString 3900 (by norm_num)).1⟩
  · rw [utf8ByteSize_eq_utf8Len]
    show utf8Len (List.replicate 10000 'a') = 10000
    rw [utf8Len, List.map_replicate, List.sum_replicate, smul_eq_mul]
    have ha : Char.utf8Size 'a' = 1 := rfl
    rw [ha, mul_one]
  · rw [splitMessageStr, List.length_map, splitMessage]
    show (splitMessageGo 3900 (List.replicate 10000 'a') [] 0).length = 3
    rw [splitMessageGo_replicate_length 'a' (by decide) 3900 (by norm_num)
      10000 [] 0 rfl (by norm_num)]
    norm_num

/-- Witness for `splitMessage_concat_and_bound` at a concrete input. -/
theorem splitMessage_concat_and_bound_witness :
    String.join (splitMessageStr "abcdef" 4) = "abcdef" ∧
    ∀ chunk ∈ splitMessageStr "abcdef" 4, chunk.utf8ByteSize ≤ 4 :=
  splitMessage_concat_and_bound.1 "abcdef" 4 (by norm_num)

/-- **C10.** Whenever every code point of the input fits in the byte budget
(true of every string at the configured maxima 2900 and 3900), every chunk
returned by `splitMessage` is non-empty, and the chunk list is empty exactly
when the input string is empty. -/
theorem splitMessage_chunks_nonempty :
    ∀ (text : String) (maxBytes : Nat),
      (∀ c ∈ text.data, c.utf8Size ≤ maxBytes) →
      (∀ chunk ∈ splitMessageStr text maxBytes, chunk ≠ "") ∧
      (splitMessageStr text maxBytes = [] ↔ text = "") := by
  intro text maxBytes hchars
  constructor
  · intro chunk hchunk
    rcases List.mem_map.mp hchunk with ⟨cl, hcl, rfl⟩
    have hne := splitMessageGo_chunks_ne_nil maxBytes text.data [] 0 rfl hchars cl hcl
    intro hcontra
    apply hne
    have : (String.mk cl).data = ("" : String).data := by rw [hcontra]
    simpa using this
  · rw [splitMessageStr, List.map_eq_nil_iff, splitMessage,
      splitMessageGo_eq_nil_iff]
    constructor
    · rintro ⟨hdata, -⟩
      apply String.ext
      simpa using hdata
    · intro h
      subst h
      exact ⟨rfl, rfl⟩

/-- Witness for `splitMessage_chunks_nonempty` at a concrete input. -/
theorem splitMessage_chunks_nonempty_witness :
    (∀ chunk ∈ splitMessageStr "hello" 2, chunk ≠ "") ∧
    (splitMessageStr "hello" 2 = [] ↔ ("hello" : String) = "") :=
  splitMessage_chunks_nonempty "hello" 2 (by decide)

/-! ## updateCategoryHistory (src/ops_dev/index.js lines 44–57 and
src/unnamed/part_001 lines 47–60)

```js
function updateCategoryHistory(userId, newCategory) {
  const history = userCategoryHistory.get(userId) || [];
  if (!history.includes(newCategory)) {
    history.push(newCategory);
    if (history.length > 3) {
      history.shift(); // drop the oldest entry
    }
    userCategoryHistory.set(userId, history);
  }
  ...
}
```

The per-user entry of the `userCategoryHistory` map is modelled as the list
it holds; `shift()` removes the first element. -/

def updateCategoryHistory (history : List String) (newCategory : String) :
    List String :=
  if newCategory ∈ history then history
  else
    let pushed := history ++ [newCategory]
    if pushed.length > 3 then pushed.tail else pushed

/-- The stored history of one user after a sequence of calls starting from
the empty history. -/
def runCategoryUpdates (updates : List String) : List String :=
  updates.foldl updateCategoryHistory []

/-- **C3 counterexample.** On the category sequence `[A, B, A, C, D]` the
code stores `["B", "C", "D"]`, which is neither `["A", "C", "D"]` (the most
recent three of the claimed `[B, A, C, D]`) nor `["B", "A", "C", "D"]`: the
repeated `A` is skipped without being moved to the end, so the final push of
`D` evicts it. -/
theorem runCategoryUpdates_counterexample :
    runCategoryUpdates ["A", "B", "A", "C", "D"] = ["B", "C", "D"] ∧
    runCategoryUpdates ["A", "B", "A", "C", "D"] ≠ ["A", "C", "D"] ∧
    runCategoryUpdates ["A", "B", "A", "C", "D"] ≠ ["B", "A", "C", "D"] := by
  decide

/-- **C3 (amended).** Starting from an empty history, applying
`updateCategoryHistory` with the sequence `[A, B, A, C, D]` (pairwise
distinct) stores `[B, C, D]`: the repeated `A` is ignored rather than
refreshed, and the final push evicts the oldest surviving entry `A`. -/
theorem runCategoryUpdates_seq :
    ∀ (a b c d : String), b ≠ a → c ≠ a → c ≠ b → d ≠ a → d ≠ b → d ≠ c →
      runCategoryUpdates [a, b, a, c, d] = [b, c, d] := by
  intro a b c d hba hca hcb hda hdb hdc
  simp [runCategoryUpdates, updateCategoryHistory, hba, hca, hcb, hda, hdb, hdc]

/-- Witness for `runCategoryUpdates_seq` on concrete distinct categories. -/
theorem runCategoryUpdates_seq_witness :
    runCategoryUpdates ["FP&A", "Accounting", "FP&A", "Legal", "IT"] =
      ["Accounting", "Legal", "IT"] :=
  runCategoryUpdates_seq "FP&A" "Accounting" "Legal" "IT"
    (by decide) (by decide) (by decide) (by decide) (by decide) (by decide)

/-- A single `updateCategoryHistory` call preserves the bound of 3 entries
and freedom from duplicates. -/
theorem updateCategoryHistory_step (history : List String) (c : String)
    (hlen : history.length ≤ 3) (hnodup : history.Nodup) :
    (updateCategoryHistory history c).length ≤ 3 ∧
      (updateCategoryHistory history c).Nodup := by
  rw [updateCategoryHistory]
  by_cases hmem : c ∈ history
  · simpa [hmem] using ⟨hlen, hnodup⟩
  · have hpush : (history ++ [c]).Nodup := by
      rw [← List.concat_eq_append]
      exact hnodup.concat hmem
    by_cases hlong : (history ++ [c]).length > 3
    · simp only [hmem, if_false, hlong, if_true, if_neg]
      constructor
      · simp only [List.length_tail, List.length_append, List.length_singleton]
        omega
      · exact hpush.tail
    · simp only [hmem, if_false, hlong, if_true, if_neg]
      refine ⟨?_, hpush⟩
      omega

/-- **C4.** For every finite sequence of `updateCategoryHistory` calls
starting from the empty history, the stored history has at most 3 entries
and contains no duplicate labels. -/
theorem runCategoryUpdates_bounded_nodup :
    ∀ (updates : List String),
      (runCategoryUpdates updates).length ≤ 3 ∧
        (runCategoryUpdates updates).Nodup := by
  have haux : ∀ (updates : List String) (h : List String),
      h.length ≤ 3 → h.Nodup →
      (updates.foldl updateCategoryHistory h).length ≤ 3 ∧
        (updates.foldl updateCategoryHistory h).Nodup := by
    intro updates
    induction updates with
    | nil => intro h hlen hnodup; exact ⟨hlen, hnodup⟩
    | cons u us ih =>
        intro h hlen hnodup
        have hstep := updateCategoryHistory_step h u hlen hnodup
        exact ih (updateCategoryHistory h u) hstep.1 hstep.2
  intro updates
  exact haux updates [] (by simp) List.nodup_nil

/-! ## convertCsvStringToDifyReadyCsvString
(src/slack-to-difyKnowledge/2_slack-to-dify-converter.js lines 23–122)

After parsing and the parent/child transformation the function packs the
transformed rows into CSV parts:

```js
const MAX_BYTES_PER_FILE = 14000 * 1024;
...
let currentRows = [];
let currentByteSize = 0;
const headerByteSize = Buffer.byteLength(headerString, 'utf8');
currentByteSize += headerByteSize;
for (const row of transformedData) {
    const rowByteSize = Buffer.byteLength(rowString, 'utf8');
    if (currentByteSize + rowByteSize > MAX_BYTES_PER_FILE && currentRows.length > 0) {
        csvParts.push(partCsvString);       // stringify(currentRows, with header)
        currentRows = [];
        currentByteSize = headerByteSize;
    }
    currentRows.push(row);
    currentByteSize += rowByteSize;
}
if (currentRows.length > 0) { csvParts.push(partCsvString); }
```

The CSV serializer (`csv-stringify`) is third-party and is treated as a
black box: the loop only consumes the byte size of each serialized row, so
the embedding is parametric in the row type and in the size function, and a
part's serialized size is the header size plus the sum of its rows'
serialized sizes (each serialized part is the header line followed by the
serializations of its rows). -/

def MAX_BYTES_PER_FILE : Nat := 14000 * 1024

/-- Byte size of the serialized header line
`parent_timestamp,parent_text,child_text\n`. -/
def headerByteSize : Nat :=
  ("parent_timestamp,parent_text,child_text\n" : String).utf8ByteSize

theorem headerByteSize_eq : headerByteSize = 40 := rfl

/-- The row-packing loop of `convertCsvStringToDifyReadyCsvString`. -/
def chunkLoop {α : Type} (size : α → Nat) (maxBytes headerBytes : Nat) :
    List α → List α → Nat → List (List α)
  | [], currentRows, _ =>
      if 0 < currentRows.length then [currentRows] else []
  | row :: rest, currentRows, currentByteSize =>
      let rowByteSize := size row
      if currentByteSize + rowByteSize > maxBytes ∧ 0 < currentRows.length then
        currentRows ::
          chunkLoop size maxBytes headerBytes rest [row] (headerBytes + rowByteSize)
      else
        chunkLoop size maxBytes headerBytes rest (currentRows ++ [row])
          (currentByteSize + rowByteSize)

/-- The parts produced for a transformed row list. -/
def difyCsvParts {α : Type} (size : α → Nat) (rows : List α) : List (List α) :=
  chunkLoop size MAX_BYTES_PER_FILE headerByteSize rows [] headerByteSize

/-- Serialized byte size of one output part: header line plus serialized
rows. -/
def partByteSize {α : Type} (size : α → Nat) (part : List α) : Nat :=
  headerByteSize + (part.map size).sum

/-- The packing loop emits every pending and remaining row exactly once and
in order. -/
theorem chunkLoop_flatten {α : Type} (size : α → Nat) (maxBytes headerBytes : Nat)
    (rest : List α) :
    ∀ (currentRows : List α) (currentByteSize : Nat),
      (chunkLoop size maxBytes headerBytes rest currentRows currentByteSize).flatten =
        currentRows ++ rest := by
  induction rest with
  | nil =>
      intro currentRows currentByteSize
      by_cases h : 0 < currentRows.length
      · simp [chunkLoop, h]
      · have : currentRows = [] := by
          cases currentRows with
          | nil => rfl
          | cons x xs => simp at h
        simp [chunkLoop, h, this]
  | cons row rest ih =>
      intro currentRows currentByteSize
      by_cases h : currentByteSize + size row > maxBytes ∧ 0 < currentRows.length
      · simp [chunkLoop, h, ih]
      · simp [chunkLoop, h, ih]

/-- Every emitted part stays within the byte ceiling, provided the running
byte counter is accurate and within the ceiling and every remaining row fits
in a part of its own. -/
theorem chunkLoop_part_le {α : Type} (size : α → Nat) (maxBytes headerBytes : Nat)
    (rest : List α) :
    ∀ (currentRows : List α) (currentByteSize : Nat),
      currentByteSize = headerBytes + (currentRows.map size).sum →
      currentByteSize ≤ maxBytes →
      (∀ r ∈ rest, headerBytes + size r ≤ maxBytes) →
      ∀ part ∈ chunkLoop size maxBytes headerBytes rest currentRows currentByteSize,
        headerBytes + (part.map size).sum ≤ maxBytes := by
  induction rest with
  | nil =>
      intro currentRows currentByteSize hacc hle _ part hpart
      by_cases h : 0 < currentRows.length
      · simp only [chunkLoop, h, if_true, List.mem_singleton] at hpart
        subst hpart
        omega
      · simp [chunkLoop, h] at hpart
  | cons row rest ih =>
      intro currentRows currentByteSize hacc hle hrest part hpart
      have hrow : headerBytes + size row ≤ maxBytes :=
        hrest row (List.mem_cons_self row rest)
      have hrest' : ∀ r ∈ rest, headerBytes + size r ≤ maxBytes :=
        fun r hr => hrest r (List.mem_cons_of_mem row hr)
      by_cases h : currentByteSize + size row > maxBytes ∧ 0 < currentRows.length
      · simp only [chunkLoop, h, and_self, if_true, List.mem_cons] at hpart
        rcases hpart with rfl | hpart
        · omega
        · exact ih [row] (headerBytes + size row) (by simp) hrow hrest' part hpart
      · simp only [chunkLoop, h, if_neg, if_false] at hpart
        refine ih (currentRows ++ [row]) (currentByteSize + size row) ?_ ?_
          hrest' part hpart
        · simp [hacc]
          omega
        · rcases Decidable.not_and_iff_or_not.mp h with hsz | hcur
          · omega
          · have hnil : currentRows = [] := by
              cases currentRows with
              | nil => rfl
              | cons x xs => simp at hcur
            subst hnil
            simp only [List.map_nil, List.sum_nil, Nat.add_zero] at hacc
            omega

/-- **C2 counterexample.** A transformed row whose serialized form is
14,336,001 bytes (one byte above `MAX_BYTES_PER_FILE`) is emitted as a part
by itself, and that part's serialized size exceeds the ceiling: the flush is
guarded by `currentRows.length > 0`, so an oversized single row is never
split. Rows are represented here by their serialized byte sizes. -/
theorem difyCsvParts_counterexample :
    difyCsvParts (fun n => n) [14336001] = [[14336001]] ∧
    ∃ part ∈ difyCsvParts (fun n => n) [14336001],
      partByteSize (fun n => n) part > MAX_BYTES_PER_FILE := by
  constructor
  · rfl
  · refine ⟨[14336001], by rw [difyCsvParts]; exact List.mem_singleton.mpr rfl, ?_⟩
    show partByteSize (fun n => n) [14336001] > MAX_BYTES_PER_FILE
    rw [partByteSize, headerByteSize_eq, MAX_BYTES_PER_FILE]
    norm_num

/-- **C2 (amended).** The concatenation of the output parts' rows reproduces
the transformed row set exactly once and in order; and provided every single
transformed row fits in a part of its own (header plus row within
`MAX_BYTES_PER_FILE`), no part's serialized size exceeds the ceiling. -/
theorem difyCsvParts_rows_and_bound {α : Type} (size : α → Nat) (rows : List α)
    (hrows : ∀ r ∈ rows, headerByteSize + size r ≤ MAX_BYTES_PER_FILE) :
    (difyCsvParts size rows).flatten = rows ∧
    ∀ part ∈ difyCsvParts size rows,
      partByteSize size part ≤ MAX_BYTES_PER_FILE := by
  constructor
  · rw [difyCsvParts, chunkLoop_flatten]
    rfl
  · intro part hpart
    rw [partByteSize]
    refine chunkLoop_part_le size MAX_BYTES_PER_FILE headerByteSize rows [] headerByteSize
      (by simp) ?_ hrows part hpart
    rw [headerByteSize_eq, MAX_BYTES_PER_FILE]
    norm_num

/-- Witness for `difyCsvParts_rows_and_bound` on two small rows. -/
theorem difyCsvParts_rows_and_bound_witness :
    (difyCsvParts (fun n => n) [100, 200]).flatten = [100, 200] ∧
    ∀ part ∈ difyCsvParts (fun n => n) [100, 200],
      partByteSize (fun n => n) part ≤ MAX_BYTES_PER_FILE :=
  difyCsvParts_rows_and_bound (fun n => n) [100, 200] (by decide)

/-! ## ops_dev duplicate-event guard and message routing
(src/ops_dev/index.js lines 165–235, 417–463, 514–678)

The module-level state relevant to the guard is
`const processingUsers = new Set()`; the userKey is the
`userId-messageTs-contentHash` tuple.  `handleDirectConsultation` checks the
guard, adds the key, posts a placeholder ("回答を生成中...") and hands off to
`processConsultationInBackground`, which re-checks the guard and then POSTs
to the Dify chat API.  Outbound effects are modelled as growing logs, and
the three phases as explicit state transformers composed in program order. -/

structure OpsState where
  processingUsers : List String
  formPosts : List String
  placeholderPosts : List String
  difyCalls : List String
deriving DecidableEq

/-- `processConsultationInBackground` up to its Dify POST (lines 514–550):
the guard is re-checked and, if the key is still present, the chat API is
called. -/
def backgroundConsultation (userKey : String) (st : OpsState) : OpsState :=
  if userKey ∈ st.processingUsers then
    { st with difyCalls := st.difyCalls ++ [userKey] }
  else st

/-- The `finally` clause of the background task (line 671): the guard entry
is removed, ending the suppression window. -/
def finishConsultation (userKey : String) (st : OpsState) : OpsState :=
  { st with processingUsers := st.processingUsers.erase userKey }

/-- One full submission (lines 417–463): on a duplicate key the handler
returns before the placeholder post and before the background task is
launched; otherwise it adds the key, posts the placeholder and runs the
background phase, the suppression window still open. -/
def handleDirectConsultation (userKey : String) (st : OpsState) : OpsState :=
  if userKey ∈ st.processingUsers then st
  else
    backgroundConsultation userKey
      { st with
        processingUsers := userKey :: st.processingUsers,
        placeholderPosts := st.placeholderPosts ++ [userKey] }

/-- **C5.** Submitting the same `(user, timestamp, content-hash)` key twice
while the first submission's guard entry is still in `processingUsers`
yields exactly one Dify chat call: the second submission changes nothing —
it is skipped before any placeholder post or API call. -/
theorem duplicate_submission_single_call :
    ∀ (userKey : String) (st : OpsState),
      userKey ∉ st.processingUsers →
      handleDirectConsultation userKey (handleDirectConsultation userKey st) =
        handleDirectConsultation userKey st ∧
      (handleDirectConsultation userKey st).difyCalls = st.difyCalls ++ [userKey] ∧
      (handleDirectConsultation userKey st).placeholderPosts =
        st.placeholderPosts ++ [userKey] := by
  intro userKey st hfresh
  have h1 : handleDirectConsultation userKey st =
      { st with
        processingUsers := userKey :: st.processingUsers,
        placeholderPosts := st.placeholderPosts ++ [userKey],
        difyCalls := st.difyCalls ++ [userKey] } := by
    rw [handleDirectConsultation, if_neg hfresh, backgroundConsultation]
    rw [if_pos (by exact List.mem_cons_self userKey st.processingUsers)]
  refine ⟨?_, by rw [h1], by rw [h1]⟩
  rw [h1]
  rw [handleDirectConsultation,
    if_pos (by exact List.mem_cons_self userKey st.processingUsers)]

/-- Witness for `duplicate_submission_single_call` on a concrete key and the
empty initial state. -/
theorem duplicate_submission_single_call_witness :
    handleDirectConsultation "U1-1700000000.0-abc12345"
        (handleDirectConsultation "U1-1700000000.0-abc12345"
          (OpsState.mk [] [] [] [])) =
      handleDirectConsultation "U1-1700000000.0-abc12345"
        (OpsState.mk [] [] [] []) ∧
    (handleDirectConsultation "U1-1700000000.0-abc12345"
        (OpsState.mk [] [] [] [])).difyCalls = [] ++ ["U1-1700000000.0-abc12345"] ∧
    (handleDirectConsultation "U1-1700000000.0-abc12345"
        (OpsState.mk [] [] [] [])).placeholderPosts =
      [] ++ ["U1-1700000000.0-abc12345"] :=
  duplicate_submission_single_call "U1-1700000000.0-abc12345"
    (OpsState.mk [] [] [] []) (by decide)

/-- The vague-expression patterns of the `app.message` handler
(src/ops_dev/index.js lines 197–203). -/
def vaguePatterns : List String :=
  ["質問", "相談", "教えて", "聞きたい",
   "質問です", "質問があります", "質問したいです",
   "相談です", "相談があります", "相談したいです",
   "分からない", "困ってます", "ヘルプ",
   "お疲れ様"]

/-- JavaScript `String.prototype.trim()`: strip leading and trailing
whitespace. -/
def jsTrim (s : String) : String :=
  String.mk
    (((s.data.dropWhile Char.isWhitespace).reverse.dropWhile
      Char.isWhitespace).reverse)

/-- The routing decision of the `app.message` handler (lines 205–222),
taking the text with the bot mention already stripped: empty or vague text
posts the Block Kit consultation form and returns; concrete text goes to
`handleDirectConsultation`. -/
def messageHandler (userText : String) (userKey : String) (st : OpsState) :
    OpsState :=
  if userText = "" ∨ jsTrim userText ∈ vaguePatterns then
    { st with formPosts := st.formPosts ++ [userKey] }
  else
    handleDirectConsultation userKey st

/-- **C6.** A mention/DM whose stripped text is empty or one of the listed
vague patterns (such as "相談") makes the handler post the Block Kit form
and issue no Dify chat call; concrete text bypasses the form and invokes the
Dify chat API exactly once via `handleDirectConsultation`. -/
theorem messageHandler_routes :
    ∀ (userText userKey : String) (st : OpsState),
      ((userText = "" ∨ jsTrim userText ∈ vaguePatterns) →
        messageHandler userText userKey st =
          { st with formPosts := st.formPosts ++ [userKey] } ∧
        (messageHandler userText userKey st).difyCalls = st.difyCalls) ∧
      (¬(userText = "" ∨ jsTrim userText ∈ vaguePatterns) →
        userKey ∉ st.processingUsers →
        messageHandler userText userKey st = handleDirectConsultation userKey st ∧
        (messageHandler userText userKey st).formPosts = st.formPosts ∧
        (messageHandler userText userKey st).difyCalls = st.difyCalls ++ [userKey]) ∧
      jsTrim "相談" ∈ vaguePatterns := by
  intro userText userKey st
  refine ⟨?_, ?_, by decide⟩
  · intro hvague
    rw [messageHandler, if_pos hvague]
    exact ⟨rfl, rfl⟩
  · intro hconcrete hfresh
    rw [messageHandler, if_neg hconcrete]
    refine ⟨rfl, ?_, ?_⟩
    · rw [handleDirectConsultation, if_neg hfresh, backgroundConsultation]
      rw [if_pos (by exact List.mem_cons_self userKey st.processingUsers)]
    · rw [handleDirectConsultation, if_neg hfresh, backgroundConsultation]
      rw [if_pos (by exact List.mem_cons_self userKey st.processingUsers)]

/-- Witness for `messageHandler_routes`: the vague text "相談" posts the
form without a Dify call, and a concrete question calls Dify once. -/
theorem messageHandler_routes_witness :
    (messageHandler "相談" "k1" (OpsState.mk [] [] [] []) =
        { OpsState.mk [] [] [] [] with formPosts := [] ++ ["k1"] } ∧
      (messageHandler "相談" "k1" (OpsState.mk [] [] [] [])).difyCalls = []) ∧
    (messageHandler "予算計画の立て方を教えてください" "k2" (OpsState.mk [] [] [] []) =
        handleDirectConsultation "k2" (OpsState.mk [] [] [] []) ∧
      (messageHandler "予算計画の立て方を教えてください" "k2"
          (OpsState.mk [] [] [] [])).formPosts = [] ∧
      (messageHandler "予算計画の立て方を教えてください" "k2"
          (OpsState.mk [] [] [] [])).difyCalls = [] ++ ["k2"]) :=
  ⟨(messageHandler_routes "相談" "k1" (OpsState.mk [] [] [] [])).1 (by decide),
   ((messageHandler_routes "予算計画の立て方を教えてください" "k2"
      (OpsState.mk [] [] [] [])).2.1 (by decide) (by decide))⟩

/-! ## fetchWithRateLimitRetry
(src/slack-to-difyKnowledge/1_slack-message-get.js lines 29–43)

```js
async function fetchWithRateLimitRetry(url, options, label = '') {
    let attempt = 0;
    while (true) {
        const res = await fetch(url, options);
        if (res.status === 429) {
            const retryAfter = parseInt(res.headers.get('retry-after') || '5', 10);
            await new Promise(resolve => setTimeout(resolve, (retryAfter + 1) * 1000));
            attempt++;
            if (attempt >= 5) throw new Error(...);
            continue;
        }
        return res;
    }
}
```

The successive results of `fetch` are supplied as a finite oracle list; the
function records every `setTimeout` sleep (in milliseconds) it performs. -/

structure SlackResponse where
  status : Nat
  retryAfter : Option Nat
deriving DecidableEq

/-- Outcome of `fetchWithRateLimitRetry`: the returned response together
with the sleeps performed, the thrown rate-limit error together with the
sleeps performed, or exhaustion of the response oracle. -/
inductive RetryOutcome where
  | returned (res : SlackResponse) (sleepsMs : List Nat)
  | threw (sleepsMs : List Nat)
  | oracleEmpty
deriving DecidableEq

/-- The `while (true)` loop with the attempt counter explicit. -/
def fetchRetryLoop (attempt : Nat) : List SlackResponse → RetryOutcome
  | [] => .oracleEmpty
  | res :: rest =>
      if res.status = 429 then
        let retryAfter := res.retryAfter.getD 5
        let sleepMs := (retryAfter + 1) * 1000
        if attempt + 1 ≥ 5 then .threw [sleepMs]
        else
          match fetchRetryLoop (attempt + 1) rest with
          | .returned r sleeps => .returned r (sleepMs :: sleeps)
          | .threw sleeps => .threw (sleepMs :: sleeps)
          | .oracleEmpty => .oracleEmpty
      else .returned res []

def fetchWithRateLimitRetry (responses : List SlackResponse) : RetryOutcome :=
  fetchRetryLoop 0 responses

/-- **C7 counterexample.** On a 429 response without a `retry-after` header
followed by a success, the function sleeps 6000 ms — `(retryAfter + 1)`
seconds with the parsed default `retryAfter = 5` — not the 5000 ms that
"waits the server-supplied retry-after delay (defaulting to 5 seconds)"
asserts. -/
theorem fetchWithRateLimitRetry_counterexample :
    fetchWithRateLimitRetry
        [SlackResponse.mk 429 none, SlackResponse.mk 200 none] =
      .returned (SlackResponse.mk 200 none) [6000] ∧
    (6000 : Nat) ≠ 5 * 1000 := by
  constructor
  · rfl
  · decide

/-- In the retry loop every 429 response contributes one sleep of
`(retryAfter + 1) * 1000` ms (`retryAfter` parsed from the header, default
5), and five consecutive 429s starting from attempt 0 end in a throw. -/
theorem fetchRetryLoop_throws_after_five (responses : List SlackResponse) :
    ∀ (attempt : Nat),
      attempt < 5 →
      responses.length + attempt = 5 →
      (∀ r ∈ responses, r.status = 429) →
      fetchRetryLoop attempt responses =
        .threw (responses.map (fun r => (r.retryAfter.getD 5 + 1) * 1000)) := by
  induction responses with
  | nil =>
      intro attempt hlt hlen _
      rw [List.length_nil] at hlen
      exact ((by omega : False).elim)
  | cons res rest ih =>
      intro attempt hlt hlen hall
      have hres : res.status = 429 := hall res (List.mem_cons_self res rest)
      have hrest : ∀ r ∈ rest, r.status = 429 :=
        fun r hr => hall r (List.mem_cons_of_mem res hr)
      simp only [List.length_cons] at hlen
      rw [fetchRetryLoop, if_pos hres]
      by_cases hlast : attempt + 1 ≥ 5
      · have : rest = [] := by
          rw [← List.length_eq_zero]
          omega
        subst this
        rw [if_pos hlast]
        rfl
      · rw [if_neg hlast, ih (attempt + 1) (by omega) (by omega) hrest]
        rfl

/-- **C7 (amended).** A non-429 response is returned immediately with no
sleep and no retry; a 429 response causes a sleep of `(retryAfter + 1)`
seconds — the parsed `retry-after` header value plus one, `6` seconds when
the header is absent — before the next attempt; and five consecutive 429
responses make the call throw, with all five sleeps performed. -/
theorem fetchWithRateLimitRetry_behaviour :
    (∀ (res : SlackResponse) (rest : List SlackResponse),
      res.status ≠ 429 →
      fetchWithRateLimitRetry (res :: rest) = .returned res []) ∧
    (∀ (res : SlackResponse) (rest : List SlackResponse) (sleeps : List Nat)
        (out : SlackResponse),
      res.status = 429 →
      fetchWithRateLimitRetry (res :: rest) = .returned out sleeps →
      sleeps.head? = some ((res.retryAfter.getD 5 + 1) * 1000)) ∧
    (∀ (responses : List SlackResponse),
      responses.length = 5 →
      (∀ r ∈ responses, r.status = 429) →
      fetchWithRateLimitRetry responses =
        .threw (responses.map (fun r => (r.retryAfter.getD 5 + 1) * 1000))) := by
  refine ⟨?_, ?_, ?_⟩
  · intro res rest hres
    rw [fetchWithRateLimitRetry, fetchRetryLoop, if_neg hres]
  · intro res rest sleeps out hres hret
    rw [fetchWithRateLimitRetry, fetchRetryLoop, if_pos hres] at hret
    rw [if_neg (by omega)] at hret
    cases hmatch : fetchRetryLoop (0 + 1) rest with
    | returned r s =>
        rw [hmatch] at hret
        cases hret
        rfl
    | threw s =>
        rw [hmatch] at hret
        cases hret
    | oracleEmpty =>
        rw [hmatch] at hret
        cases hret
  · intro responses hlen hall
    exact fetchRetryLoop_throws_after_five responses 0 (by omega) (by omega) hall

/-- Witness for `fetchWithRateLimitRetry_behaviour` on concrete responses. -/
theorem fetchWithRateLimitRetry_behaviour_witness :
    fetchWithRateLimitRetry [SlackResponse.mk 200 none] =
      .returned (SlackResponse.mk 200 none) [] ∧
    fetchWithRateLimitRetry
        [SlackResponse.mk 429 (some 3), SlackResponse.mk 429 none,
         SlackResponse.mk 429 (some 3), SlackResponse.mk 429 none,
         SlackResponse.mk 429 (some 10)] =
      .threw [4000, 6000, 4000, 6000, 11000] :=
  ⟨fetchWithRateLimitRetry_behaviour.1 (SlackResponse.mk 200 none) [] (by decide),
   by
    rw [fetchWithRateLimitRetry_behaviour.2.2
      [SlackResponse.mk 429 (some 3), SlackResponse.mk 429 none,
       SlackResponse.mk 429 (some 3), SlackResponse.mk 429 none,
       SlackResponse.mk 429 (some 10)] (by decide) (by decide)]
    rfl⟩

/-! ## Conversation-id stores across the bot variants
(src/slack-dify-ops-bot/index.js lines 190–193, src/ops_dev/index.js lines
580–584, src/slack-dify-operator/app-socket.js lines 193–195,
src/unnamed/part_005 lines 29–39 and 78–84)

The stores are plain objects/Maps keyed by thread key or user id; they are
modelled as association lists with JavaScript map semantics. -/

/-- `map.get(key)` / `store[key]`. -/
def getEntry {α : Type} : List (String × α) → String → Option α
  | [], _ => none
  | (k', v) :: rest, k => if k' = k then some v else getEntry rest k

/-- `map.set(key, v)` / `store[key] = v`: overwrite or insert. -/
def setEntry {α : Type} : List (String × α) → String → α → List (String × α)
  | [], k, v => [(k, v)]
  | (k', v') :: rest, k, v =>
      if k' = k then (k, v) :: rest else (k', v') :: setEntry rest k v

theorem getEntry_setEntry {α : Type} (store : List (String × α))
    (key k : String) (v : α) :
    getEntry (setEntry store key v) k =
      if key = k then some v else getEntry store k := by
  induction store with
  | nil => simp [setEntry, getEntry]
  | cons e rest ih =>
      obtain ⟨k', v'⟩ := e
      by_cases h : k' = key
      · subst h
        by_cases hk : k' = k
        · subst hk; simp [setEntry, getEntry]
        · simp [setEntry, getEntry, hk]
      · by_cases hk : k' = k
        · subst hk
          have : ¬ key = k' := fun hc => h hc.symm
          simp [setEntry, getEntry, h, this]
        · simp [setEntry, getEntry, h, hk, ih]

/-- slack-dify-ops-bot lines 190–193 and ops_dev lines 581–584 (also
slack-dify-mso-chatflow lines 63–65): a non-empty conversation id arriving
from the chat API overwrites the entry. -/
def storeConversationOverwrite (store : List (String × String))
    (key newId : String) : List (String × String) :=
  if newId ≠ "" then setEntry store key newId else store

/-- slack-dify-operator/app-socket.js lines 193–195: the entry is written
only when the key is absent (`!conversationMap.has(threadKey)`). -/
def storeConversationIfAbsent (store : List (String × String))
    (key newId : String) : List (String × String) :=
  if newId ≠ "" ∧ getEntry store key = none then setEntry store key newId
  else store

def oneHourMs : Nat := 60 * 60 * 1000

/-- src/unnamed/part_005 lines 78–84: the entry also records the update
time. -/
def storeConversationTimed (store : List (String × String × Nat))
    (key newId : String) (now : Nat) : List (String × String × Nat) :=
  if newId ≠ "" then setEntry store key (newId, now) else store

/-- src/unnamed/part_005 lines 30–39: the hourly sweep deletes every entry
older than one hour. -/
def cleanupConvMap (now : Nat) (store : List (String × String × Nat)) :
    List (String × String × Nat) :=
  store.filter (fun e => ¬ now - e.2.2 > oneHourMs)

/-- **C8 counterexample.** In the slack-dify-operator variant an existing
mapping entry is not overwritten when a new conversation id arrives: the
write is guarded by `!conversationMap.has(threadKey)`. -/
theorem conversationStore_counterexample :
    storeConversationIfAbsent [("C42-111.222", "conv-old")] "C42-111.222"
        "conv-new" =
      [("C42-111.222", "conv-old")] ∧
    ([("C42-111.222", "conv-old")] : List (String × String)) ≠
      [("C42-111.222", "conv-new")] := by
  exact ⟨by decide, by decide⟩

/-- **C8 (amended).** In every variant the mapping entry is created when the
first conversation id for the key arrives and is never deleted by the
message handlers; in the ops-bot/ops_dev/mso-chatflow variants a new id
overwrites the entry, while the slack-dify-operator variant keeps the first
id and ignores later ones; only the part_005 variant deletes entries, by the
time-based hourly sweep, which removes exactly the entries older than one
hour. -/
theorem conversationStore_behaviour :
    (∀ (store : List (String × String)) (key newId : String),
      newId ≠ "" →
      getEntry (storeConversationOverwrite store key newId) key = some newId) ∧
    (∀ (store : List (String × String)) (key newId : String),
      newId ≠ "" → getEntry store key = none →
      getEntry (storeConversationIfAbsent store key newId) key = some newId) ∧
    (∀ (store : List (String × String)) (key newId oldId : String),
      getEntry store key = some oldId →
      storeConversationIfAbsent store key newId = store) ∧
    (∀ (store : List (String × String)) (key newId k' : String) (v : String),
      getEntry store k' = some v →
      ∃ v', getEntry (storeConversationOverwrite store key newId) k' = some v') ∧
    (∀ (now : Nat) (store : List (String × String × Nat))
        (e : String × String × Nat),
      e ∈ store → (e ∈ cleanupConvMap now store ↔ now - e.2.2 ≤ oneHourMs)) := by
  refine ⟨?_, ?_, ?_, ?_, ?_⟩
  · intro store key newId hid
    rw [storeConversationOverwrite, if_pos hid, getEntry_setEntry, if_pos rfl]
  · intro store key newId hid habsent
    rw [storeConversationIfAbsent, if_pos ⟨hid, habsent⟩, getEntry_setEntry,
      if_pos rfl]
  · intro store key newId oldId hpresent
    rw [storeConversationIfAbsent, if_neg]
    rintro ⟨-, habsent⟩
    rw [hpresent] at habsent
    cases habsent
  · intro store key newId k' v hv
    rw [storeConversationOverwrite]
    by_cases hid : newId ≠ ""
    · rw [if_pos hid, getEntry_setEntry]
      by_cases hk : key = k'
      · exact ⟨newId, by rw [if_pos hk]⟩
      · exact ⟨v, by rw [if_neg hk, hv]⟩
    · exact ⟨v, by rw [if_neg hid, hv]⟩
  · intro now store e he
    rw [cleanupConvMap]
    constructor
    · intro hmem
      have := List.of_mem_filter hmem
      simpa using this
    · intro hage
      refine List.mem_filter.mpr ⟨he, ?_⟩
      simpa using hage

/-- Witness for `conversationStore_behaviour` on concrete stores. -/
theorem conversationStore_behaviour_witness :
    getEntry (storeConversationOverwrite [("t1", "c1")] "t1" "c2") "t1" =
      some "c2" ∧
    getEntry (storeConversationIfAbsent [] "t1" "c1") "t1" = some "c1" ∧
    storeConversationIfAbsent [("t1", "c1")] "t1" "c2" = [("t1", "c1")] ∧
    (∃ v', getEntry (storeConversationOverwrite [("t1", "c1")] "t2" "c2") "t1" =
      some v') ∧
    (("t1", ("c1", 1000)) ∈ cleanupConvMap (oneHourMs + 2000)
        [("t1", ("c1", 1000))] ↔
      oneHourMs + 2000 - 1000 ≤ oneHourMs) :=
  ⟨conversationStore_behaviour.1 [("t1", "c1")] "t1" "c2" (by decide),
   conversationStore_behaviour.2.1 [] "t1" "c1" (by decide) rfl,
   conversationStore_behaviour.2.2.1 [("t1", "c1")] "t1" "c2" "c1" rfl,
   conversationStore_behaviour.2.2.2.1 [("t1", "c1")] "t2" "c2" "t1" "c1" rfl,
   conversationStore_behaviour.2.2.2.2 (oneHourMs + 2000)
     [("t1", ("c1", 1000))] ("t1", ("c1", 1000)) (by decide)⟩

/-! ## getContentRecursively
(src/notionDB-to-difyKnowledge/1_notionDB-get.js lines 92–146)

The walker lists the children of a block, collects text blocks, and recurses
into `child_page` blocks and into every page of `child_database` blocks,
guarded by a shared visited set:

```js
async function getContentRecursively(blockId, notion, visited, indent = '') {
    if (visited.has(blockId)) {
        return `${indent}[循環参照をスキップ: ${blockId}]`;
    }
    visited.add(blockId);
    ...
    return allTextBlocks.map(escapeNewlines).join('\\n');
}
```

The remote Notion workspace is modelled as finite association lists: the
children listed for a block id (pagination collapsed into one list), the
page ids a database query returns, and the title property of a page.  The
mutable shared `visited` set is threaded through the calls explicitly, the
walk also logs the ids it processes and counts the Notion API list/query
calls it issues, and a fuel parameter makes the recursion structural. -/

inductive NBlock where
  | text (s : String)
  | childPage (id : String) (title : String)
  | childDatabase (id : String) (title : String)
deriving DecidableEq

structure NotionWorld where
  children : List (String × List NBlock)
  dbPages : List (String × List String)
  pageTitles : List (String × String)
deriving DecidableEq

def childrenOf (w : NotionWorld) (blockId : String) : List NBlock :=
  (getEntry w.children blockId).getD []

def pagesOf (w : NotionWorld) (dbId : String) : List String :=
  (getEntry w.dbPages dbId).getD []

/-- `page.properties` title lookup with the `'Untitled Page'` fallback. -/
def titleOf (w : NotionWorld) (pageId : String) : String :=
  (getEntry w.pageTitles pageId).getD "Untitled Page"

/-- `escapeNewlines` (lines 28–31): every `\r\n`, `\n` or `\r` becomes the
two-character sequence `\n`. -/
def escapeNewlinesGo : List Char → List Char
  | [] => []
  | '\r' :: '\n' :: rest => '\\' :: 'n' :: escapeNewlinesGo rest
  | '\n' :: rest => '\\' :: 'n' :: escapeNewlinesGo rest
  | '\r' :: rest => '\\' :: 'n' :: escapeNewlinesGo rest
  | c :: rest => c :: escapeNewlinesGo rest

def escapeNewlines (s : String) : String :=
  String.mk (escapeNewlinesGo s.data)

/-- `allTextBlocks.map(escapeNewlines).join('\\n')` (line 145). -/
def joinContent (blocks : List String) : String :=
  String.intercalate "\\n" (blocks.map escapeNewlines)

/-- The cycle-skip marker returned for an already-visited block (line 94). -/
def skipMarker (indent : String) (blockId : String) : String :=
  indent ++ "[循環参照をスキップ: " ++ blockId ++ "]"

/-- Result of a walk: the returned content, the visited set after the call,
the ids processed (non-skip entries) in order, and the number of Notion API
list/query calls issued. -/
structure WalkOut where
  content : String
  visited : List String
  processed : List String
  apiCalls : Nat
deriving DecidableEq

mutual

def getContentRecursively (w : NotionWorld) :
    Nat → String → List String → String → Option WalkOut
  | 0, _, _, _ => none
  | Nat.succ fuel, blockId, visited, indent =>
      if blockId ∈ visited then
        some ⟨skipMarker indent blockId, visited, [], 0⟩
      else
        match processChildren w fuel (childrenOf w blockId)
            (visited ++ [blockId]) indent with
        | none => none
        | some (blocks, visited1, processed1, api1) =>
            some ⟨joinContent blocks, visited1, blockId :: processed1, api1 + 1⟩

def processChildren (w : NotionWorld) :
    Nat → List NBlock → List String → String →
      Option (List String × List String × List String × Nat)
  | _, [], visited, _ => some ([], visited, [], 0)
  | fuel, NBlock.text s :: bs, visited, indent =>
      match processChildren w fuel bs visited indent with
      | none => none
      | some (blocks, visited1, processed1, api1) =>
          some ((if s = "" then [] else [indent ++ s]) ++ blocks,
            visited1, processed1, api1)
  | fuel, NBlock.childPage id title :: bs, visited, indent =>
      match getContentRecursively w fuel id visited (indent ++ "  ") with
      | none => none
      | some sub =>
          match processChildren w fuel bs sub.visited indent with
          | none => none
          | some (blocks, visited1, processed1, api1) =>
              some (("\n" ++ indent ++ "--- Sub-Page: " ++ title ++ " ---") ::
                  sub.content :: blocks,
                visited1, sub.processed ++ processed1, sub.apiCalls + api1)
  | fuel, NBlock.childDatabase id title :: bs, visited, indent =>
      match processPages w fuel (pagesOf w id) visited indent with
      | none => none
      | some (dbBlocks, visited1, processed1, api1) =>
          match processChildren w fuel bs visited1 indent with
          | none => none
          | some (blocks, visited2, processed2, api2) =>
              some (("\n" ++ indent ++ "--- Database: " ++
                  (if title = "" then "Untitled Database" else title) ++ " ---") ::
                  (dbBlocks ++ blocks),
                visited2, processed1 ++ processed2, (api1 + 1) + api2)

def processPages (w : NotionWorld) :
    Nat → List String → List String → String →
      Option (List String × List String × List String × Nat)
  | _, [], visited, _ => some ([], visited, [], 0)
  | fuel, p :: ps, visited, indent =>
      match getContentRecursively w fuel p visited (indent ++ "    ") with
      | none => none
      | some sub =>
          match processPages w fuel ps sub.visited indent with
          | none => none
          | some (blocks, visited1, processed1, api1) =>
              some (("\n" ++ indent ++ "  --- DB Entry: " ++ titleOf w p ++ " ---") ::
                  sub.content :: blocks,
                visited1, sub.processed ++ processed1, sub.apiCalls + api1)

end

/-- Discipline linking the visited set before a call, the visited set after
it and the log of processed ids: the ids processed are exactly the ones
appended to the visited set, none of them was visited before, and none is
processed twice. -/
def WalkInv (vin vout pr : List String) : Prop :=
  vout = vin ++ pr ∧ (∀ i ∈ pr, i ∉ vin) ∧ pr.Nodup

theorem WalkInv.refl (v : List String) : WalkInv v v [] :=
  ⟨by simp, by simp, List.nodup_nil⟩

theorem WalkInv.trans {a b c p q : List String}
    (h1 : WalkInv a b p) (h2 : WalkInv b c q) : WalkInv a c (p ++ q) := by
  obtain ⟨hb, hfp, hnp⟩ := h1
  obtain ⟨hc, hfq, hnq⟩ := h2
  refine ⟨by rw [hc, hb, List.append_assoc], ?_, ?_⟩
  · intro i hi
    rcases List.mem_append.mp hi with hip | hiq
    · exact hfp i hip
    · intro hia
      exact hfq i hiq (hb ▸ List.mem_append_left p hia)
  · rw [List.nodup_append]
    refine ⟨hnp, hnq, ?_⟩
    intro i hip hiq
    exact hfq i hiq (hb ▸ List.mem_append_right a hip)

def GInv (w : NotionWorld) (fuel : Nat) : Prop :=
  ∀ (blockId : String) (visited : List String) (indent : String) (out : WalkOut),
    getContentRecursively w fuel blockId visited indent = some out →
    WalkInv visited out.visited out.processed

def CInv (w : NotionWorld) (fuel : Nat) : Prop :=
  ∀ (bs : List NBlock) (visited : List String) (indent : String)
    (r : List String × List String × List String × Nat),
    processChildren w fuel bs visited indent = some r →
    WalkInv visited r.2.1 r.2.2.1

def PInv (w : NotionWorld) (fuel : Nat) : Prop :=
  ∀ (ps : List String) (visited : List String) (indent : String)
    (r : List String × List String × List String × Nat),
    processPages w fuel ps visited indent = some r →
    WalkInv visited r.2.1 r.2.2.1

theorem walkInv_G_zero (w : NotionWorld) : GInv w 0 := by
  intro blockId visited indent out h
  simp [getContentRecursively] at h

theorem walkInv_P (w : NotionWorld) (fuel : Nat) (hG : GInv w fuel) :
    PInv w fuel := by
  intro ps
  induction ps with
  | nil =>
      intro visited indent r h
      simp only [processPages, Option.some_inj] at h
      rw [← h]
      exact WalkInv.refl visited
  | cons p ps ih =>
      intro visited indent r h
      simp only [processPages] at h
      cases hg : getContentRecursively w fuel p visited (indent ++ "    ") with
      | none => rw [hg] at h; simp at h
      | some sub =>
          rw [hg] at h
          simp only at h
          cases hp : processPages w fuel ps sub.visited indent with
          | none => rw [hp] at h; simp at h
          | some r1 =>
              obtain ⟨blocks, v1, pr1, a1⟩ := r1
              rw [hp] at h
              simp only [Option.some_inj] at h
              rw [← h]
              exact (hG p visited (indent ++ "    ") sub hg).trans
                (ih sub.visited indent (blocks, v1, pr1, a1) hp)

theorem walkInv_C (w : NotionWorld) (fuel : Nat) (hG : GInv w fuel)
    (hP : PInv w fuel) : CInv w fuel := by
  intro bs
  induction bs with
  | nil =>
      intro visited indent r h
      simp only [processChildren, Option.some_inj] at h
      rw [← h]
      exact WalkInv.refl visited
  | cons b bs ih =>
      intro visited indent r h
      cases b with
      | text s =>
          simp only [processChildren] at h
          cases hc : processChildren w fuel bs visited indent with
          | none => rw [hc] at h; simp at h
          | some r1 =>
              obtain ⟨blocks, v1, pr1, a1⟩ := r1
              rw [hc] at h
              simp only [Option.some_inj] at h
              rw [← h]
              exact ih visited indent (blocks, v1, pr1, a1) hc
      | childPage id title =>
          simp only [processChildren] at h
          cases hg : getContentRecursively w fuel id visited (indent ++ "  ") with
          | none => rw [hg] at h; simp at h
          | some sub =>
              rw [hg] at h
              simp only at h
              cases hc : processChildren w fuel bs sub.visited indent with
              | none => rw [hc] at h; simp at h
              | some r1 =>
                  obtain ⟨blocks, v1, pr1, a1⟩ := r1
                  rw [hc] at h
                  simp only [Option.some_inj] at h
                  rw [← h]
                  exact (hG id visited (indent ++ "  ") sub hg).trans
                    (ih sub.visited indent (blocks, v1, pr1, a1) hc)
      | childDatabase id title =>
          simp only [processChildren] at h
          cases hpg : processPages w fuel (pagesOf w id) visited indent with
          | none => rw [hpg] at h; simp at h
          | some r0 =>
              obtain ⟨dbBlocks, v1, pr1, a1⟩ := r0
              rw [hpg] at h
              simp only at h
              cases hc : processChildren w fuel bs v1 indent with
              | none => rw [hc] at h; simp at h
              | some r1 =>
                  obtain ⟨blocks, v2, pr2, a2⟩ := r1
                  rw [hc] at h
                  simp only [Option.some_inj] at h
                  rw [← h]
                  exact (hP (pagesOf w id) visited indent (dbBlocks, v1, pr1, a1) hpg).trans
                    (ih v1 indent (blocks, v2, pr2, a2) hc)

theorem walkInv_G_succ (w : NotionWorld) (fuel : Nat) (hC : CInv w fuel) :
    GInv w (fuel + 1) := by
  intro blockId visited indent out h
  simp only [getContentRecursively] at h
  by_cases hv : blockId ∈ visited
  · rw [if_pos hv] at h
    simp only [Option.some_inj] at h
    rw [← h]
    exact WalkInv.refl visited
  · rw [if_neg hv] at h
    cases hpc : processChildren w fuel (childrenOf w blockId)
        (visited ++ [blockId]) indent with
    | none => rw [hpc] at h; simp at h
    | some r1 =>
        obtain ⟨blocks, v1, pr1, a1⟩ := r1
        rw [hpc] at h
        simp only [Option.some_inj] at h
        rw [← h]
        obtain ⟨hb, hf, hn⟩ :=
          hC (childrenOf w blockId) (visited ++ [blockId]) indent
            (blocks, v1, pr1, a1) hpc
        refine ⟨?_, ?_, ?_⟩
        · simpa [List.append_assoc] using hb
        · intro i hi
          rcases List.mem_cons.mp hi with rfl | hi
          · exact hv
          · intro hiv
            exact hf i hi (List.mem_append_left [blockId] hiv)
        · rw [List.nodup_cons]
          refine ⟨?_, hn⟩
          intro hmem
          exact hf blockId hmem (List.mem_append_right visited (by simp))

theorem walkInv_all (w : NotionWorld) :
    ∀ fuel, GInv w fuel ∧ CInv w fuel ∧ PInv w fuel := by
  intro fuel
  induction fuel with
  | zero =>
      refine ⟨walkInv_G_zero w, ?_, ?_⟩
      · exact walkInv_C w 0 (walkInv_G_zero w) (walkInv_P w 0 (walkInv_G_zero w))
      · exact walkInv_P w 0 (walkInv_G_zero w)
  | succ fuel ih =>
      have hG := walkInv_G_succ w fuel ih.2.1
      exact ⟨hG, walkInv_C w (fuel + 1) hG (walkInv_P w (fuel + 1) hG),
        walkInv_P w (fuel + 1) hG⟩

/-- The ids a single block can make the walk recurse into. -/
def blockIdsOf : NBlock → List String
  | NBlock.text _ => []
  | NBlock.childPage id _ => [id]
  | NBlock.childDatabase id _ => [id]

/-- The ids a block list can make the walk recurse into. -/
def childRefIds (bs : List NBlock) : List String :=
  (bs.map blockIdsOf).flatten

/-- All ids the walk can ever recurse into in a given workspace: the
sub-page/child-database references of every child list plus every page id a
database query can return. -/
def universeIds (w : NotionWorld) : List String :=
  (w.children.map (fun e => childRefIds e.2)).flatten ++
    (w.dbPages.map (fun e => e.2)).flatten

/-- Number of elements of `us` not yet visited. -/
def unvisitedCountOn (us visited : List String) : Nat :=
  (us.filter (fun i => decide (i ∉ visited))).length

/-- Number of reachable ids not yet visited; the fuel bound of the walk. -/
def unvisitedCount (w : NotionWorld) (visited : List String) : Nat :=
  unvisitedCountOn (universeIds w) visited

theorem unvisitedCountOn_mono (us : List String) :
    ∀ (v v' : List String), (∀ i, i ∈ v → i ∈ v') →
      unvisitedCountOn us v' ≤ unvisitedCountOn us v := by
  induction us with
  | nil => intro v v' _; simp [unvisitedCountOn]
  | cons u rest ih =>
      intro v v' hsub
      simp only [unvisitedCountOn, List.filter_cons] at *
      by_cases h' : u ∈ v'
      · rw [if_neg (by simpa using h')]
        by_cases h : u ∈ v
        · rw [if_neg (by simpa using h)]
          exact ih v v' hsub
        · rw [if_pos (by simpa using h)]
          exact le_trans (ih v v' hsub) (by simp)
      · have h : u ∉ v := fun hc => h' (hsub u hc)
        rw [if_pos (by simpa using h'), if_pos (by simpa using h)]
        simpa using ih v v' hsub

theorem unvisitedCountOn_strict (us : List String) :
    ∀ (v : List String) (b : String), b ∈ us → b ∉ v →
      unvisitedCountOn us (v ++ [b]) < unvisitedCountOn us v := by
  induction us with
  | nil => intro v b hb _; simp at hb
  | cons u rest ih =>
      intro v b hb hnv
      simp only [unvisitedCountOn, List.filter_cons]
      by_cases hub : u = b
      · subst hub
        rw [if_neg (by simp), if_pos (by simpa using hnv)]
        have hmono : unvisitedCountOn rest (v ++ [u]) ≤ unvisitedCountOn rest v :=
          unvisitedCountOn_mono rest v (v ++ [u])
            (fun i hi => List.mem_append_left [u] hi)
        simp only [unvisitedCountOn] at hmono
        simpa using Nat.lt_succ_of_le hmono
      · have hb' : b ∈ rest := by
          rcases List.mem_cons.mp hb with h | h
          · exact absurd h.symm hub
          · exact h
        by_cases huv : u ∈ v
        · rw [if_neg (by simp [List.mem_append, huv]),
            if_neg (by simpa using huv)]
          exact ih v b hb' hnv
        · have huvb : u ∉ v ++ [b] := by
            simp only [List.mem_append, List.mem_singleton]
            rintro (h | h)
            · exact huv h
            · exact hub h
          rw [if_pos (by simpa using huvb), if_pos (by simpa using huv)]
          simp only [List.length_cons]
          exact Nat.succ_lt_succ (ih v b hb' hnv)

theorem getEntry_mem {α : Type} (l : List (String × α)) (k : String) (v : α) :
    getEntry l k = some v → (k, v) ∈ l := by
  induction l with
  | nil => intro h; simp [getEntry] at h
  | cons e rest ih =>
      obtain ⟨k', v'⟩ := e
      intro h
      simp only [getEntry] at h
      by_cases hk : k' = k
      · rw [if_pos hk] at h
        simp only [Option.some_inj] at h
        subst hk
        rw [← h]
        exact List.mem_cons_self _ _
      · rw [if_neg hk] at h
        exact List.mem_cons_of_mem _ (ih h)

theorem childRef_mem_universe (w : NotionWorld) (blockId : String) :
    ∀ i ∈ childRefIds (childrenOf w blockId), i ∈ universeIds w := by
  intro i hi
  rw [childrenOf] at hi
  cases heq : getEntry w.children blockId with
  | none => rw [heq] at hi; simp [childRefIds] at hi
  | some bs =>
      rw [heq] at hi
      simp only [Option.getD_some] at hi
      have hmem : (blockId, bs) ∈ w.children := getEntry_mem _ _ _ heq
      apply List.mem_append_left
      rw [List.mem_flatten]
      exact ⟨childRefIds bs, List.mem_map.mpr ⟨(blockId, bs), hmem, rfl⟩, hi⟩

theorem page_mem_universe (w : NotionWorld) (dbId : String) :
    ∀ p ∈ pagesOf w dbId, p ∈ universeIds w := by
  intro p hp
  rw [pagesOf] at hp
  cases heq : getEntry w.dbPages dbId with
  | none => rw [heq] at hp; simp at hp
  | some ps =>
      rw [heq] at hp
      simp only [Option.getD_some] at hp
      have hmem : (dbId, ps) ∈ w.dbPages := getEntry_mem _ _ _ heq
      apply List.mem_append_right
      rw [List.mem_flatten]
      exact ⟨ps, List.mem_map.mpr ⟨(dbId, ps), hmem, rfl⟩, hp⟩

theorem term_P (w : NotionWorld) (fuel : Nat)
    (hG : ∀ (blockId : String) (visited : List String) (indent : String),
      blockId ∈ universeIds w → unvisitedCount w visited < fuel →
      (getContentRecursively w fuel blockId visited indent).isSome) :
    ∀ (ps : List String) (visited : List String) (indent : String),
      (∀ p ∈ ps, p ∈ universeIds w) →
      unvisitedCount w visited < fuel →
      (processPages w fuel ps visited indent).isSome := by
  intro ps
  induction ps with
  | nil => intro visited indent _ _; simp [processPages]
  | cons p ps ih =>
      intro visited indent hsub hcount
      obtain ⟨sub, hg⟩ := Option.isSome_iff_exists.mp
        (hG p visited (indent ++ "    ") (hsub p (List.mem_cons_self p ps)) hcount)
      have hcount' : unvisitedCount w sub.visited < fuel := by
        obtain ⟨hb, -, -⟩ := (walkInv_all w fuel).1 p visited (indent ++ "    ") sub hg
        have hmono : unvisitedCount w sub.visited ≤ unvisitedCount w visited :=
          unvisitedCountOn_mono (universeIds w) visited sub.visited
            (by rw [hb]; intro i hi; exact List.mem_append_left _ hi)
        omega
      obtain ⟨r, hp2⟩ := Option.isSome_iff_exists.mp
        (ih sub.visited indent (fun q hq => hsub q (List.mem_cons_of_mem p hq))
          hcount')
      obtain ⟨blocks, v1, pr1, a1⟩ := r
      simp only [processPages]
      rw [hg]
      simp only
      rw [hp2]
      simp

theorem term_C (w : NotionWorld) (fuel : Nat)
    (hG : ∀ (blockId : String) (visited : List String) (indent : String),
      blockId ∈ universeIds w → unvisitedCount w visited < fuel →
      (getContentRecursively w fuel blockId visited indent).isSome) :
    ∀ (bs : List NBlock) (visited : List String) (indent : String),
      (∀ i ∈ childRefIds bs, i ∈ universeIds w) →
      unvisitedCount w visited < fuel →
      (processChildren w fuel bs visited indent).isSome := by
  intro bs
  induction bs with
  | nil => intro visited indent _ _; simp [processChildren]
  | cons b bs ih =>
      intro visited indent hsub hcount
      have hsub' : ∀ i ∈ childRefIds bs, i ∈ universeIds w := by
        intro i hi
        exact hsub i (by simp [childRefIds] at hi ⊢; exact Or.inr hi)
      cases b with
      | text s =>
          obtain ⟨r, hc⟩ := Option.isSome_iff_exists.mp
            (ih visited indent hsub' hcount)
          obtain ⟨blocks, v1, pr1, a1⟩ := r
          simp only [processChildren]
          rw [hc]
          simp
      | childPage id title =>
          have hid : id ∈ universeIds w :=
            hsub id (by simp [childRefIds, blockIdsOf])
          obtain ⟨sub, hg⟩ := Option.isSome_iff_exists.mp
            (hG id visited (indent ++ "  ") hid hcount)
          have hcount' : unvisitedCount w sub.visited < fuel := by
            obtain ⟨hb, -, -⟩ :=
              (walkInv_all w fuel).1 id visited (indent ++ "  ") sub hg
            have hmono : unvisitedCount w sub.visited ≤ unvisitedCount w visited :=
              unvisitedCountOn_mono (universeIds w) visited sub.visited
                (by rw [hb]; intro i hi; exact List.mem_append_left _ hi)
            omega
          obtain ⟨r, hc⟩ := Option.isSome_iff_exists.mp
            (ih sub.visited indent hsub' hcount')
          obtain ⟨blocks, v1, pr1, a1⟩ := r
          simp only [processChildren]
          rw [hg]
          simp only
          rw [hc]
          simp
      | childDatabase id title =>
          obtain ⟨r0, hpg⟩ := Option.isSome_iff_exists.mp
            (term_P w fuel hG (pagesOf w id) visited indent
              (page_mem_universe w id) hcount)
          obtain ⟨dbBlocks, v1, pr1, a1⟩ := r0
          have hcount' : unvisitedCount w v1 < fuel := by
            obtain ⟨hb, -, -⟩ :=
              (walkInv_all w fuel).2.2 (pagesOf w id) visited indent
                (dbBlocks, v1, pr1, a1) hpg
            have hb' : v1 = visited ++ pr1 := hb
            have hmono : unvisitedCount w v1 ≤ unvisitedCount w visited :=
              unvisitedCountOn_mono (universeIds w) visited v1
                (by rw [hb']; intro i hi; exact List.mem_append_left _ hi)
            omega
          obtain ⟨r, hc⟩ := Option.isSome_iff_exists.mp
            (ih v1 indent hsub' hcount')
          obtain ⟨blocks, v2, pr2, a2⟩ := r
          simp only [processChildren]
          rw [hpg]
          simp only
          rw [hc]
          simp

theorem term_G_all (w : NotionWorld) :
    ∀ (fuel : Nat) (blockId : String) (visited : List String) (indent : String),
      blockId ∈ universeIds w ∨ blockId ∈ visited →
      unvisitedCount w visited < fuel →
      (getContentRecursively w fuel blockId visited indent).isSome := by
  intro fuel
  induction fuel with
  | zero =>
      intro blockId visited indent _ hcount
      exact absurd hcount (Nat.not_lt_zero _)
  | succ fuel ih =>
      intro blockId visited indent hmem hcount
      by_cases hv : blockId ∈ visited
      · simp only [getContentRecursively]
        rw [if_pos hv]
        simp
      · have hU : blockId ∈ universeIds w := hmem.resolve_right hv
        have hstrict : unvisitedCount w (visited ++ [blockId]) <
            unvisitedCount w visited :=
          unvisitedCountOn_strict (universeIds w) visited blockId hU hv
        have hcount' : unvisitedCount w (visited ++ [blockId]) < fuel := by
          omega
        obtain ⟨r, hr⟩ := Option.isSome_iff_exists.mp
          (term_C w fuel (fun b' v' i' hb hc => ih b' v' i' (Or.inl hb) hc)
            (childrenOf w blockId) (visited ++ [blockId]) indent
            (childRef_mem_universe w blockId) hcount')
        obtain ⟨blocks, v1, pr1, a1⟩ := r
        simp only [getContentRecursively]
        rw [if_neg hv, hr]
        simp

/-- **C9.** The walk never processes the same block id twice: an
already-visited id returns the skip marker with the visited set unchanged,
an empty processed log and zero API calls; every successful walk processes a
duplicate-free set of ids, none of them previously visited; and on every
finite workspace the walk completes — even when child-page/child-database
references form cycles — once the fuel exceeds the number of unvisited
reachable ids by two. -/
theorem getContentRecursively_visited_guard :
    ∀ (w : NotionWorld) (fuel : Nat) (blockId : String)
      (visited : List String) (indent : String),
      (blockId ∈ visited →
        getContentRecursively w (fuel + 1) blockId visited indent =
          some ⟨skipMarker indent blockId, visited, [], 0⟩) ∧
      (∀ out, getContentRecursively w fuel blockId visited indent = some out →
        out.processed.Nodup ∧ ∀ i ∈ out.processed, i ∉ visited) ∧
      (unvisitedCount w visited + 2 ≤ fuel →
        (getContentRecursively w fuel blockId visited indent).isSome) := by
  intro w fuel blockId visited indent
  refine ⟨?_, ?_, ?_⟩
  · intro hv
    simp only [getContentRecursively]
    rw [if_pos hv]
  · intro out h
    obtain ⟨-, hf, hn⟩ := (walkInv_all w fuel).1 blockId visited indent out h
    exact ⟨hn, hf⟩
  · intro hfuel
    cases fuel with
    | zero => exact absurd hfuel (by omega)
    | succ f =>
        by_cases hv : blockId ∈ visited
        · simp only [getContentRecursively]
          rw [if_pos hv]
          simp
        · have hmono : unvisitedCount w (visited ++ [blockId]) ≤
              unvisitedCount w visited :=
            unvisitedCountOn_mono (universeIds w) visited (visited ++ [blockId])
              (fun i hi => List.mem_append_left _ hi)
          have hcount' : unvisitedCount w (visited ++ [blockId]) < f := by
            omega
          obtain ⟨r, hr⟩ := Option.isSome_iff_exists.mp
            (term_C w f
              (fun b' v' i' hb hc => term_G_all w f b' v' i' (Or.inl hb) hc)
              (childrenOf w blockId) (visited ++ [blockId]) indent
              (childRef_mem_universe w blockId) hcount')
          obtain ⟨blocks, v1, pr1, a1⟩ := r
          simp only [getContentRecursively]
          rw [if_neg hv, hr]
          simp

/-- Witness for `getContentRecursively_visited_guard`: a two-page workspace
whose sub-page references form a cycle (A → B → A), and the empty
workspace. -/
theorem getContentRecursively_visited_guard_witness :
    getContentRecursively
        (NotionWorld.mk
          [("A", [NBlock.childPage "B" "b"]), ("B", [NBlock.childPage "A" "a"])]
          [] [])
        (3 + 1) "A" ["A"] "" =
      some ⟨skipMarker "" "A", ["A"], [], 0⟩ ∧
    ((WalkOut.mk (joinContent []) ["A"] ["A"] 1).processed.Nodup ∧
      ∀ i ∈ (WalkOut.mk (joinContent []) ["A"] ["A"] 1).processed,
        i ∉ ([] : List String)) ∧
    (getContentRecursively
        (NotionWorld.mk
          [("A", [NBlock.childPage "B" "b"]), ("B", [NBlock.childPage "A" "a"])]
          [] [])
        4 "A" [] "").isSome :=
  ⟨(getContentRecursively_visited_guard
      (NotionWorld.mk
        [("A", [NBlock.childPage "B" "b"]), ("B", [NBlock.childPage "A" "a"])]
        [] [])
      3 "A" ["A"] "").1 (by decide),
   (getContentRecursively_visited_guard (NotionWorld.mk [] [] [])
      1 "A" [] "").2.1 (WalkOut.mk (joinContent []) ["A"] ["A"] 1)
      (by simp [getContentRecursively, processChildren, childrenOf, getEntry]),
   (getContentRecursively_visited_guard
      (NotionWorld.mk
        [("A", [NBlock.childPage "B" "b"]), ("B", [NBlock.childPage "A" "a"])]
        [] [])
      4 "A" [] "").2.2 (by decide)⟩

end OpsApp
